import Mathlib

/-!
# zap-monolog: the emission pipeline, child derivation and construction

A shallow embedding of `monolog.go`.  Go values become Lean values, pointers
that are shared (the atomic level, the backing arrays of processor slices)
become addresses into an explicit heap, and every call that leaves the package
(a processor, an option, the sink) is recorded as an event in a trace, so that
"is called", "is called once" and "is not called" are statements about a list.
Run-time faults (an index out of range, a nil dereference) are values of
`Panic` returned through `Except`.
-/

namespace Monolog

/-! ## zapcore values -/

/-- The type tag of a `zapcore.Field`.  zapcore declares `UnknownType` first, so
it is the tag of the zero value `zapcore.Field{}`. -/
inductive FieldType where
  | UnknownType
  | ArrayMarshalerType
  | ObjectMarshalerType
  | BinaryType
  | BoolType
  | ByteStringType
  | Complex128Type
  | Complex64Type
  | DurationType
  | Float64Type
  | Float32Type
  | Int64Type
  | Int32Type
  | Int16Type
  | Int8Type
  | StringType
  | TimeType
  | Uint64Type
  | Uint32Type
  | Uint16Type
  | Uint8Type
  | UintptrType
  | ReflectType
  | NamespaceType
  | StringerType
  | ErrorType
  | SkipType
  deriving DecidableEq, Repr

mutual
/-- A `zapcore.Field`: key, type tag, and the three payload slots. -/
inductive Field where
  | mk (Key : String) (Typ : FieldType) (Integer : Int) (Str : String)
      (Interface : Payload)
/-- What the `Interface` slot of a field can hold: nothing, the `*extraFields`
composite built by `write` (a slice of pointers to fields, each possibly nil),
or any other value, kept abstract. -/
inductive Payload where
  | nil
  | extraFields (fields : List (Option Field))
  | other (repr : String)
end

/-- The key of a field. -/
def Field.Key : Field → String
  | .mk k _ _ _ _ => k

/-- The type tag of a field (`f.Type` in the source). -/
def Field.Typ : Field → FieldType
  | .mk _ t _ _ _ => t

/-- The `Interface` slot of a field. -/
def Field.Interface : Field → Payload
  | .mk _ _ _ _ i => i

/-- The zero value `zapcore.Field{}`, which is what `make` fills a slice with. -/
def Field.zero : Field := .mk "" .UnknownType 0 "" .nil

/-- The composite of `type extraFields struct { fields []*zapcore.Field }`. -/
structure extraFields where
  fields : List (Option Field)

/-- Constructor `zap.Object(key, val)` for the one marshaler this package passes. -/
def zap.Object (key : String) (val : extraFields) : Field :=
  .mk key .ObjectMarshalerType 0 "" (.extraFields val.fields)

/-- Constructor `zap.Namespace(key)`. -/
def zap.Namespace (key : String) : Field :=
  .mk key .NamespaceType 0 "" .nil

/-- Constructor `zap.String(key, val)`, used by the test's `simpleProcessor`. -/
def zap.String (key : String) (val : String) : Field :=
  .mk key .StringType 0 val .nil

/-- A `zapcore.Level` (an `int8` in Go; no arithmetic is done on it). -/
abbrev Level := Int

/-- Severity `zapcore.DebugLevel`. -/
def DebugLevel : Level := -1
/-- Severity `zapcore.InfoLevel`, the zero value. -/
def InfoLevel : Level := 0
/-- Severity `zapcore.WarnLevel`. -/
def WarnLevel : Level := 1
/-- Severity `zapcore.ErrorLevel`. -/
def ErrorLevel : Level := 2

/-- Modelled from the spec: the gate comparison of section 4.1 (zapcore's
`Level.Enabled`, which is not part of this repository): a candidate severity is
enabled iff it is at or above the threshold. -/
def Level.Enabled (threshold : Level) (lvl : Level) : Bool :=
  decide (threshold ≤ lvl)

/-- A `zap.AtomicLevel`: a pointer to one atomically updated cell, so copying the
struct copies the address, not the threshold. -/
structure AtomicLevel where
  l : Nat
  deriving DecidableEq, Repr

/-- Run-time faults of the Go code. -/
inductive Panic where
  | indexOutOfRange (index : Nat) (length : Nat)
  | nilDereference
  deriving DecidableEq, Repr

/-- A Go `error` value as built by `github.com/pkg/errors`. -/
inductive Error where
  | new (msg : String)
  | wrap (cause : Error) (msg : String)
  deriving DecidableEq, Repr

/-- The call `errors.Wrap(err, message)`: nil stays nil, anything else is wrapped. -/
def errors.Wrap : Option Error → String → Option Error
  | none, _ => none
  | some e, message => some (.wrap e message)

/-- The value `zap.NewProductionEncoderConfig()` and any other encoder
configuration, which this package only stores. -/
inductive EncoderConfig where
  | production
  | custom (id : Nat)
  deriving DecidableEq, Repr

/-- The fields of `zap.Config` that `New` sets; the others keep their zero value. -/
structure Config where
  Development : Bool
  DisableCaller : Bool
  DisableStacktrace : Bool
  EncoderConfig : EncoderConfig
  Encoding : String
  ErrorOutputPaths : List String
  Level : AtomicLevel
  OutputPaths : List String
  deriving DecidableEq, Repr

/-- Modelled from the spec: the sink of section 6 (a `*zap.Logger`, which is not
part of this repository): the core it was built with and the permanent context
its `withFields` accumulated. -/
structure Sink where
  core : Nat
  context : List Field

/-- Modelled from the spec: `withFields(fields)` of section 6 returns a derived
sink carrying the extra context; the receiver is left as it was. -/
def Sink.With (s : Sink) (fields : List Field) : Sink :=
  { s with context := s.context ++ fields }

/-- A `ProcessorFunc`: a zero-argument function returning a field.  It may read and
change ambient state `σ`; it has no access to loggers, levels or slices. -/
abbrev ProcessorFunc (σ : Type) := σ → Field × σ

/-- The zero value a fresh `[]ProcessorFunc` is filled with.  No code path of
this package calls it: `With` overwrites every slot before the slice is used. -/
def ProcessorFunc.zero (σ : Type) : ProcessorFunc σ := fun s => (Field.zero, s)

/-- A Go slice header for `[]ProcessorFunc`: address of the backing array,
length and capacity. -/
structure Slice where
  ptr : Nat
  len : Nat
  cap : Nat
  deriving DecidableEq, Repr

/-- The nil slice. -/
def Slice.nil : Slice := ⟨0, 0, 0⟩

/-- What the program shares by reference: ambient state, the atomic level
cells, and the backing arrays of processor slices (by address, then by index;
the extent of an array is the capacity of the slices that point to it), each
with its allocator.  Allocation hands out `arrayNext` and moves it up, so the
arrays in use are those below `arrayNext`; address 0 is the array of the nil
slice. -/
structure Heap (σ : Type) where
  amb : σ
  levels : Nat → Level
  levelNext : Nat
  arrays : Nat → Nat → ProcessorFunc σ
  arrayNext : Nat

set_option linter.dupNamespace false in
/-- The struct `Logger`.  `Logger` is the sink, nil until `New` has built it. -/
structure Logger where
  Logger : Option Sink
  Config : Config
  Level : AtomicLevel
  Processors : Slice

/-- An `OptionsFunc`: it receives the logger by pointer, so it returns the logger
as it left it, and it may fail. -/
abbrev OptionsFunc (σ : Type) := Logger → Heap σ → Option Error × Logger × Heap σ

/-- Calls that leave the package, in the order they are made. -/
inductive Event where
  | processor (index : Nat) (result : Field)
  | emit (sink : Option Sink) (level : Level) (msg : String) (fields : List Field)
  | option (index : Nat)
  | build (cfg : Config)

/-- The heap together with the trace of outside calls made so far. -/
structure World (σ : Type) where
  heap : Heap σ
  trace : List Event


/-! ## Heap operations: levels and slices -/

/-- The call `zap.NewAtomicLevelAt(l)`: a fresh cell holding `l`. -/
def Heap.NewAtomicLevelAt {σ : Type} (h : Heap σ) (lvl : Level) : AtomicLevel × Heap σ :=
  (⟨h.levelNext⟩,
   { h with levels := Function.update h.levels h.levelNext lvl,
            levelNext := h.levelNext + 1 })

/-- The call `lvl.SetLevel(l)`: overwrite the cell the handle points to. -/
def AtomicLevel.SetLevel {σ : Type} (a : AtomicLevel) (lvl : Level) (h : Heap σ) : Heap σ :=
  { h with levels := Function.update h.levels a.l lvl }

/-- The call `lvl.Enabled(l)`: read the cell, compare. -/
def AtomicLevel.Enabled {σ : Type} (a : AtomicLevel) (h : Heap σ) (lvl : Level) : Bool :=
  Level.Enabled (h.levels a.l) lvl

/-- The elements a slice denotes: the first `len` cells of its backing array. -/
def Heap.elems {σ : Type} (h : Heap σ) (s : Slice) : List (ProcessorFunc σ) :=
  (List.range s.len).map (h.arrays s.ptr)

/-- The call `make([]ProcessorFunc, n)`: a fresh array of `n` zero values. -/
def Heap.make {σ : Type} (h : Heap σ) (n : Nat) : Slice × Heap σ :=
  (⟨h.arrayNext, n, n⟩,
   { h with arrays := Function.update h.arrays h.arrayNext (fun _ => ProcessorFunc.zero σ),
            arrayNext := h.arrayNext + 1 })

/-- The indexed store `s[i] = p`, bounds-checked against the length of `s`. -/
def Heap.storeAt {σ : Type} (h : Heap σ) (s : Slice) (i : Nat) (p : ProcessorFunc σ) :
    Except Panic (Heap σ) :=
  if i < s.len then
    .ok { h with arrays := Function.update h.arrays s.ptr (Function.update (h.arrays s.ptr) i p) }
  else .error (.indexOutOfRange i s.len)

/-- Go's builtin `append(s, p)`: with spare capacity the element is written in
place into the backing array that `s` points to; otherwise the elements move to
a fresh, larger array.  `grow` is the runtime's growth policy. -/
def Heap.append {σ : Type} (grow : Nat → Nat) (h : Heap σ) (s : Slice) (p : ProcessorFunc σ) :
    Slice × Heap σ :=
  if s.len < s.cap then
    ({ s with len := s.len + 1 },
     { h with arrays := Function.update h.arrays s.ptr (Function.update (h.arrays s.ptr) s.len p) })
  else
    let c := max (s.len + 1) (grow s.cap)
    (⟨h.arrayNext, s.len + 1, c⟩,
     { h with arrays := Function.update h.arrays h.arrayNext
                          (fun i => if i < s.len then h.arrays s.ptr i
                                    else if i = s.len then p else ProcessorFunc.zero σ),
              arrayNext := h.arrayNext + 1 })

/-- The indexed store `xs[i] = x` on a slice held by value in a local variable. -/
def store {α : Type} (xs : List α) (i : Nat) (x : α) : Except Panic (List α) :=
  if i < xs.length then .ok (xs.set i x) else .error (.indexOutOfRange i xs.length)

/-- Append one event to the trace. -/
def World.log {σ : Type} (w : World σ) (e : Event) : World σ :=
  { w with trace := w.trace ++ [e] }

/-! ## `With` -/

/-- The loop `for i, p := range l.Processors { n.Processors[i] = p }` of `With`,
with `k` iterations left and `i` the current index.  The range expression is
evaluated once (`src` is the header copied at loop entry); each element is read
from the backing array when its iteration starts. -/
def With.copy {σ : Type} (src dst : Slice) : Nat → Nat → Heap σ → Except Panic (Heap σ)
  | 0, _, h => .ok h
  | k + 1, i, h =>
    match h.storeAt dst i (h.arrays src.ptr i) with
    | .error e => .error e
    | .ok h1 => With.copy src dst k (i + 1) h1

/-- The method `(l *Logger) With(fields ...zapcore.Field) *Logger`.  The call
`l.Logger.With(fields...)` belongs to the sink; on a logger that has no sink yet
the child has none either. -/
def With {σ : Type} (l : Logger) (fields : List Field) (h : Heap σ) :
    Except Panic (Logger × Heap σ) :=
  let (ps, h1) := h.make l.Processors.len
  let n : Logger :=
    { Logger := l.Logger.map (fun s => s.With fields),
      Config := l.Config,
      Level := l.Level,
      Processors := ps }
  match With.copy l.Processors n.Processors l.Processors.len 0 h1 with
  | .error e => .error e
  | .ok h2 => .ok (n, h2)

/-! ## `extraFields` and `write` -/

/-- What an `ObjectEncoder` has been given so far. -/
abbrev ObjectEncoder := List Field

/-- The call `f.AddTo(enc)` of zapcore on a field that is there. -/
def Field.AddTo (f : Field) (enc : ObjectEncoder) : ObjectEncoder :=
  enc ++ [f]

/-- The loop of `MarshalLogObject`: `f` is a `*zapcore.Field`, and `f.AddTo(enc)`
dereferences it. -/
def extraFields.MarshalLogObject.loop : List (Option Field) → ObjectEncoder → Except Panic ObjectEncoder
  | [], enc => .ok enc
  | none :: _, _ => .error .nilDereference
  | some f :: fs, enc => extraFields.MarshalLogObject.loop fs (f.AddTo enc)

/-- The method `(e *extraFields) MarshalLogObject(enc) error`: the encoder after
the call and the returned error, which is always nil. -/
def extraFields.MarshalLogObject (e : extraFields) (enc : ObjectEncoder) :
    Except Panic (ObjectEncoder × Option Error) :=
  match extraFields.MarshalLogObject.loop e.fields enc with
  | .error p => .error p
  | .ok enc1 => .ok (enc1, none)

/-- The first loop of `write`: call each processor (the `k`-th of the list),
and store a pointer to its result at `extras.fields[i]` when its type is known. -/
def write.processors {σ : Type} :
    List (ProcessorFunc σ) → Nat → List (Option Field) → Nat → World σ →
      Except Panic (List (Option Field) × Nat × World σ)
  | [], _, efs, i, w => .ok (efs, i, w)
  | p :: ps, k, efs, i, w =>
    let (f, a) := p w.heap.amb
    let w1 : World σ := { heap := { w.heap with amb := a }, trace := w.trace ++ [Event.processor k f] }
    if f.Typ ≠ .UnknownType then
      match store efs i (some f) with
      | .error e => .error e
      | .ok efs1 => write.processors ps (k + 1) efs1 (i + 1) w1
    else write.processors ps (k + 1) efs i w1

/-- The second loop of `write`: copy each call-site field of known type to `ctx[i]`. -/
def write.fields : List Field → List Field → Nat → Except Panic (List Field × Nat)
  | [], ctx, i => .ok (ctx, i)
  | f :: fs, ctx, i =>
    if f.Typ ≠ .UnknownType then
      match store ctx i f with
      | .error e => .error e
      | .ok ctx1 => write.fields fs ctx1 (i + 1)
    else write.fields fs ctx i

/-- The method `(l *Logger) write(level, msg, fields)`. -/
def write {σ : Type} (l : Logger) (level : Level) (msg : String) (fields : List Field)
    (w : World σ) : Except Panic (World σ) :=
  if !l.Level.Enabled w.heap level then .ok w
  else
    match write.processors (w.heap.elems l.Processors) 0
        (List.replicate l.Processors.len none) 0 w with
    | .error e => .error e
    | .ok (efs, _, w1) =>
      let extras : extraFields := ⟨efs⟩
      match store (List.replicate (fields.length + 2) Field.zero) 0 (zap.Object "extra" extras) with
      | .error e => .error e
      | .ok ctx0 =>
        match store ctx0 1 (zap.Namespace "context") with
        | .error e => .error e
        | .ok ctx1 =>
          match write.fields fields ctx1 2 with
          | .error e => .error e
          | .ok (ctx, _) => .ok (w1.log (Event.emit l.Logger InfoLevel msg ctx))

/-- The method `(l *Logger) Info(msg, fields...)`. -/
def Info {σ : Type} (l : Logger) (msg : String) (fields : List Field) (w : World σ) :
    Except Panic (World σ) :=
  write l InfoLevel msg fields w

/-! ## `New` -/

/-- The loop `for _, f := range options` of `New`, at the `k`-th option: the
error of the first option that fails (nil when none does), the logger and the
world as the loop left them. -/
def New.options {σ : Type} :
    List (OptionsFunc σ) → Nat → Logger → World σ → Option Error × Logger × World σ
  | [], _, l, w => (none, l, w)
  | f :: fs, k, l, w =>
    match f l w.heap with
    | (some err, l1, h1) => (some err, l1, { heap := h1, trace := w.trace ++ [Event.option k] })
    | (none, l1, h1) => New.options fs (k + 1) l1 { heap := h1, trace := w.trace ++ [Event.option k] }

/-- The literal `&Logger{Config: zap.Config{...}, Level: a}` of `New`; the fields
it does not name (`Logger`, `Processors`) are nil. -/
def New.l (a : AtomicLevel) : Logger :=
  { Logger := none,
    Config :=
      { Development := false,
        DisableCaller := true,
        DisableStacktrace := true,
        EncoderConfig := .production,
        Encoding := "json",
        ErrorOutputPaths := ["stderr"],
        Level := a,
        OutputPaths := ["stdout"] },
    Level := a,
    Processors := Slice.nil }

/-- The function `New(options ...OptionsFunc) (*Logger, error)`.  `build` is
`zap.Config.Build`, the sink's constructor. -/
def New {σ : Type} (build : Config → Except Error Sink) (options : List (OptionsFunc σ))
    (w : World σ) : (Option Logger × Option Error) × World σ :=
  let (a, h0) := w.heap.NewAtomicLevelAt InfoLevel
  let l := New.l a
  match New.options options 0 l { w with heap := h0 } with
  | (some err, _, w1) => ((none, errors.Wrap (some err) "options function failed"), w1)
  | (none, l1, w1) =>
    match build l1.Config with
    | .error err =>
      ((none, errors.Wrap (some err) "failed to build logger"), w1.log (Event.build l1.Config))
    | .ok logger =>
      ((some { l1 with Logger := some logger }, none), w1.log (Event.build l1.Config))

/-! ## Specification-side vocabulary -/

/-- The type test both loops of `write` apply: `f.Type != zapcore.UnknownType`. -/
def known (f : Field) : Bool := decide (f.Typ ≠ .UnknownType)

/-- The results of calling the processors one after the other from ambient state
`a`, in invocation order, with the ambient state they leave. -/
def processorResults {σ : Type} : List (ProcessorFunc σ) → σ → List Field × σ
  | [], a => ([], a)
  | p :: ps, a => ((p a).1 :: (processorResults ps (p a).2).1, (processorResults ps (p a).2).2)

/-- The trace entries of calling processors number `k`, `k+1`, ... with the given results. -/
def processorEvents : Nat → List Field → List Event
  | _, [] => []
  | k, f :: fs => Event.processor k f :: processorEvents (k + 1) fs

/-- The sink call an event is, if it is one: receiver and message. -/
def Event.emitted : Event → Option (Option Sink × String)
  | .emit sink _ msg _ => some (sink, msg)
  | _ => none

/-! ## Concrete processors, heaps and loggers -/

/-- The processor of the repository's test: it returns `foo="bar"`. -/
def simpleProcessor : ProcessorFunc Unit := fun a => (zap.String "foo" "bar", a)

/-- A processor that asks to be left out of this record: it returns `zapcore.Field{}`. -/
def omittedProcessor : ProcessorFunc Unit := fun a => (Field.zero, a)

/-- A heap with one level cell (address 0, threshold `t`) and one backing array
(address 1) holding the processors `ps`. -/
def heapOf (t : Level) (ps : List (ProcessorFunc Unit)) : Heap Unit :=
  { amb := (),
    levels := fun _ => t,
    levelNext := 1,
    arrays := fun _ i => ps.getD i (ProcessorFunc.zero Unit),
    arrayNext := 2 }

/-- A built logger over `heapOf`: its gate is cell 0 and its processor list is the
first `n` cells of array 1. -/
def loggerOf (n : Nat) : Logger :=
  { New.l ⟨0⟩ with Logger := some ⟨0, []⟩, Processors := ⟨1, n, n⟩ }

/-- The child that `With(hello="world")` derives from `loggerOf 1` in `heapOf`:
its processors live in the fresh array 2. -/
def childOf : Logger :=
  { New.l ⟨0⟩ with
    Logger := some ⟨0, [zap.String "hello" "world"]⟩, Processors := ⟨2, 1, 1⟩ }

/-- An option that succeeds: it turns caller annotation on. -/
def callerOption : OptionsFunc Unit := fun l h =>
  (none, { l with Config := { l.Config with DisableCaller := false } }, h)

/-- An option that fails and leaves the logger alone. -/
def failingOption : OptionsFunc Unit := fun l h => (some (Error.new "bad option"), l, h)

/-- An option that gives the configuration a level of its own, at Debug:
`l.Config.Level = zap.NewAtomicLevelAt(zapcore.DebugLevel)`. -/
def levelOption : OptionsFunc Unit := fun l h =>
  (none, { l with Config := { l.Config with Level := (h.NewAtomicLevelAt DebugLevel).1 } },
   (h.NewAtomicLevelAt DebugLevel).2)

/-- The severity of the sink call an event is, if it is one. -/
def Event.emittedLevel : Event → Option Level
  | .emit _ level _ _ => some level
  | _ => none

/-- The field list of the sink call an event is, if it is one. -/
def Event.emittedFields : Event → Option (List Field)
  | .emit _ _ _ fields => some fields
  | _ => none

/-- The position, in the processor list, of the processor call an event is, if
it is one. -/
def Event.invoked : Event → Option Nat
  | .processor index _ => some index
  | _ => none

/-- The statement `x.Processors = append(x.Processors, p)`, as in the repository's
test: the logger with its slice header replaced, and the heap after the append. -/
def appendProcessor {σ : Type} (grow : Nat → Nat) (x : Logger) (p : ProcessorFunc σ)
    (h : Heap σ) : Logger × Heap σ :=
  ({ x with Processors := (h.append grow x.Processors p).1 }, (h.append grow x.Processors p).2)

/-- A run of such appends on a parent `l` and a child `c`, in the order given:
each step appends to the child's list (`true`) or to the parent's (`false`).
The result is the parent, the child and the heap after the run. -/
def appendEach {σ : Type} (grow : Nat → Nat) :
    List (Bool × ProcessorFunc σ) → Logger → Logger → Heap σ → Logger × Logger × Heap σ
  | [], l, c, h => (l, c, h)
  | (true, p) :: ops, l, c, h =>
    appendEach grow ops l (appendProcessor grow c p h).1 (appendProcessor grow c p h).2
  | (false, p) :: ops, l, c, h =>
    appendEach grow ops (appendProcessor grow l p h).1 c (appendProcessor grow l p h).2

/-- The processors a run of appends gives to the child, in order. -/
def childAppends {σ : Type} (ops : List (Bool × ProcessorFunc σ)) : List (ProcessorFunc σ) :=
  (ops.filter (fun o => o.1)).map (fun o => o.2)

/-- The processors a run of appends gives to the parent, in order. -/
def parentAppends {σ : Type} (ops : List (Bool × ProcessorFunc σ)) : List (ProcessorFunc σ) :=
  (ops.filter (fun o => !o.1)).map (fun o => o.2)

/-- A built logger over `heapOf` whose processor list has one element and room
for three more in its backing array (array 1). -/
def roomyLogger : Logger :=
  { New.l ⟨0⟩ with Logger := some ⟨0, []⟩, Processors := ⟨1, 1, 4⟩ }

/-- `AppliedInOrder σ fs l h l1 h1`, the specification's "applies each option in
order", stated on the options themselves: each option of `fs`, applied to the
logger and heap the one before it left (the first to `l` and `h`), returns no
error, and the last leaves `l1` and `h1`. -/
inductive AppliedInOrder (σ : Type) :
    List (OptionsFunc σ) → Logger → Heap σ → Logger → Heap σ → Prop where
  | nil (l : Logger) (h : Heap σ) : AppliedInOrder σ [] l h l h
  | cons {f : OptionsFunc σ} {fs : List (OptionsFunc σ)} {l l1 l2 : Logger} {h h1 h2 : Heap σ} :
      f l h = (none, l1, h1) → AppliedInOrder σ fs l1 h1 l2 h2 →
        AppliedInOrder σ (f :: fs) l h l2 h2

/-- `SomeOptionFails σ fs l h err`: starting from `l` and `h`, the options before
some option `f` of `fs` apply in order without error, and `f`, applied to what
they left, returns the error `err`. -/
def SomeOptionFails (σ : Type) (fs : List (OptionsFunc σ)) (l : Logger) (h : Heap σ)
    (err : Error) : Prop :=
  ∃ (pre post : List (OptionsFunc σ)) (f : OptionsFunc σ) (l1 l2 : Logger) (h1 h2 : Heap σ),
    fs = pre ++ f :: post ∧ AppliedInOrder σ pre l h l1 h1 ∧ f l1 h1 = (some err, l2, h2)

/-- `Derived l c`: the logger `c` comes from `l` by any number of `With` calls,
with any fields, in any heaps. -/
inductive Derived (σ : Type) : Logger → Logger → Prop where
  | refl (l : Logger) : Derived σ l l
  | step {l c c1 : Logger} (fields : List Field) (h h1 : Heap σ) :
      Derived σ l c → With c fields h = .ok (c1, h1) → Derived σ l c1

/-! ## The two loops of `write` -/

theorem store_at_length {α : Type} (pre : List α) (r : α) (rest : List α) (x : α) :
    store (pre ++ r :: rest) pre.length x = .ok (pre ++ x :: rest) := by
  unfold store
  simp

theorem write_fields_eq (fs : List Field) :
    ∀ (pre rest : List Field), fs.length ≤ rest.length →
      write.fields fs (pre ++ rest) pre.length
        = .ok (pre ++ fs.filter known ++ rest.drop (fs.filter known).length,
               pre.length + (fs.filter known).length) := by
  induction fs with
  | nil => intro pre rest _; simp [write.fields]
  | cons f fs ih =>
    intro pre rest hlen
    cases rest with
    | nil => simp at hlen
    | cons r rest =>
      simp only [List.length_cons, Nat.add_le_add_iff_right] at hlen
      by_cases hk : f.Typ = .UnknownType
      · have hlen2 : fs.length ≤ (r :: rest).length := by simp; omega
        simp [write.fields, hk, known, ih pre (r :: rest) hlen2]
      · have h := ih (pre ++ [f]) rest hlen
        simp only [List.append_assoc, List.singleton_append, List.length_append,
          List.length_singleton] at h
        simp [write.fields, hk, known, store_at_length, h]
        omega

theorem write_processors_eq {σ : Type} (ps : List (ProcessorFunc σ)) :
    ∀ (k : Nat) (pre rest : List (Option Field)) (w : World σ), ps.length ≤ rest.length →
      write.processors ps k (pre ++ rest) pre.length w
        = .ok (pre ++ (((processorResults ps w.heap.amb).1.filter known).map some)
                 ++ rest.drop ((processorResults ps w.heap.amb).1.filter known).length,
               pre.length + ((processorResults ps w.heap.amb).1.filter known).length,
               { heap := { w.heap with amb := (processorResults ps w.heap.amb).2 },
                 trace := w.trace ++ processorEvents k (processorResults ps w.heap.amb).1 }) := by
  induction ps with
  | nil => intro k pre rest w _; simp [write.processors, processorResults, processorEvents]
  | cons p ps ih =>
    intro k pre rest w hlen
    cases rest with
    | nil => simp at hlen
    | cons r rest =>
      simp only [List.length_cons, Nat.add_le_add_iff_right] at hlen
      by_cases hk : (p w.heap.amb).1.Typ = .UnknownType
      · have hlen2 : ps.length ≤ (r :: rest).length := by simp; omega
        simp [write.processors, hk, known, processorResults, processorEvents,
          ih (k + 1) pre (r :: rest) _ hlen2]
      · have h := ih (k + 1) (pre ++ [some (p w.heap.amb).1]) rest
          { heap := { w.heap with amb := (p w.heap.amb).2 },
            trace := w.trace ++ [Event.processor k (p w.heap.amb).1] } hlen
        simp only [List.append_assoc, List.singleton_append, List.length_append,
          List.length_singleton] at h
        simp [write.processors, hk, known, processorResults, processorEvents, store_at_length, h]
        omega


/-- What an enabled `write` does, in closed form: the processors run in order,
`extras.fields` holds the known results followed by the untouched nil slots,
`ctx` holds the two fixed entries, the known call-site fields and the untouched
zero-valued slots, and one `Info` call goes to the sink. -/
theorem write_enabled_eq {σ : Type} (l : Logger) (level : Level) (msg : String)
    (fields : List Field) (w : World σ) (hen : l.Level.Enabled w.heap level = true) :
    write l level msg fields w
      = .ok
          { heap := { w.heap with
              amb := (processorResults (w.heap.elems l.Processors) w.heap.amb).2 },
            trace := w.trace
              ++ processorEvents 0 (processorResults (w.heap.elems l.Processors) w.heap.amb).1
              ++ [Event.emit l.Logger InfoLevel msg
                    (zap.Object "extra"
                        ⟨((processorResults (w.heap.elems l.Processors) w.heap.amb).1.filter
                              known).map some
                          ++ List.replicate
                              (l.Processors.len
                                - ((processorResults (w.heap.elems l.Processors)
                                      w.heap.amb).1.filter known).length) none⟩
                      :: zap.Namespace "context"
                      :: (fields.filter known
                          ++ List.replicate (fields.length - (fields.filter known).length)
                              Field.zero))] } := by
  have hp := write_processors_eq (w.heap.elems l.Processors) 0 []
    (List.replicate l.Processors.len none) w (by simp [Heap.elems])
  have hf := write_fields_eq fields
    [zap.Object "extra"
        ⟨((processorResults (w.heap.elems l.Processors) w.heap.amb).1.filter known).map some
          ++ List.replicate
              (l.Processors.len
                - ((processorResults (w.heap.elems l.Processors) w.heap.amb).1.filter
                    known).length) none⟩,
      zap.Namespace "context"]
    (List.replicate fields.length Field.zero) (by simp)
  simp only [List.nil_append, List.length_nil, Nat.zero_add, List.drop_replicate,
    List.length_map] at hp
  simp only [List.length_cons, List.length_nil, Nat.zero_add, List.drop_replicate,
    List.cons_append, List.nil_append] at hf
  simp only [write, hen, Bool.not_true, Bool.false_eq_true, if_false, hp]
  simp only [store, List.length_replicate, Nat.lt_add_left_iff_pos, Nat.zero_lt_succ,
    if_true, List.replicate_succ, List.set_cons_zero, List.length_cons, List.set_cons_succ,
    Nat.one_lt_ofNat, Nat.lt_add_one, Nat.zero_lt_two, Nat.succ_lt_succ_iff]
  rw [show (1 + 1 : Nat) = 2 from rfl] at hf
  simp only [hf, World.log]


theorem processorEvents_not_emitted (fs : List Field) :
    ∀ k : Nat, (processorEvents k fs).filterMap Event.emitted = [] := by
  induction fs with
  | nil => intro k; rfl
  | cons f fs ih => intro k; simp [processorEvents, Event.emitted, ih]

theorem processorEvents_no_level (fs : List Field) :
    ∀ k : Nat, (processorEvents k fs).filterMap Event.emittedLevel = [] := by
  induction fs with
  | nil => intro k; rfl
  | cons f fs ih => intro k; simp [processorEvents, Event.emittedLevel, ih]

theorem processorEvents_length (fs : List Field) :
    ∀ k : Nat, (processorEvents k fs).length = fs.length := by
  induction fs with
  | nil => intro k; rfl
  | cons f fs ih => intro k; simp [processorEvents, ih]

theorem processorEvents_invoked (fs : List Field) :
    ∀ k : Nat, (processorEvents k fs).filterMap Event.invoked = List.range' k fs.length := by
  induction fs with
  | nil => intro k; rfl
  | cons f fs ih => intro k; simp [processorEvents, Event.invoked, ih, List.range'_succ]

theorem processorEvents_no_fields (fs : List Field) :
    ∀ k : Nat, (processorEvents k fs).filterMap Event.emittedFields = [] := by
  induction fs with
  | nil => intro k; rfl
  | cons f fs ih => intro k; simp [processorEvents, Event.emittedFields, ih]

theorem length_sub_filter_known (fs : List Field) :
    fs.length - (fs.filter known).length = (fs.filter (fun f => !known f)).length := by
  induction fs with
  | nil => rfl
  | cons f fs ih =>
    have hle := List.length_filter_le known fs
    cases hk : known f
    · simp only [List.length_cons, List.filter_cons, hk, Bool.false_eq_true, if_false,
        Bool.not_false, if_true]
      omega
    · simp only [List.length_cons, List.filter_cons, hk, if_true, Bool.not_true,
        Bool.false_eq_true, if_false]
      omega

theorem filter_known_of_all (fs : List Field) (h : ∀ f ∈ fs, f.Typ ≠ .UnknownType) :
    fs.filter known = fs := by
  apply List.filter_eq_self.mpr
  intro f hf
  simp [known, h f hf]

theorem processorResults_length {σ : Type} (ps : List (ProcessorFunc σ)) :
    ∀ a : σ, (processorResults ps a).1.length = ps.length := by
  induction ps with
  | nil => intro a; rfl
  | cons p ps ih => intro a; simp [processorResults, ih]

/-! ## The emission pipeline -/

theorem write_disabled_eq {σ : Type} (l : Logger) (level : Level) (msg : String)
    (fields : List Field) (w : World σ) (hdis : l.Level.Enabled w.heap level = false) :
    write l level msg fields w = .ok w := by
  simp [write, hdis]

/-- C1: when the logger's shared level reports the severity as not enabled, `write`
returns the world exactly as it received it.  The trace is part of the world and
every processor call and every sink call is an entry of the trace, so no
processor was invoked and no call reached the sink. -/
theorem write_disabled_no_calls {σ : Type} (l : Logger) (level : Level) (msg : String)
    (fields : List Field) (w : World σ) (hdis : l.Level.Enabled w.heap level = false) :
    write l level msg fields w = .ok w := by
  simp [write, hdis]

theorem write_disabled_no_calls_witness :
    (loggerOf 1).Level.Enabled (heapOf InfoLevel [simpleProcessor]) DebugLevel = false
      ∧ write (loggerOf 1) DebugLevel "hello world" [zap.String "hello" "world"]
            ⟨heapOf InfoLevel [simpleProcessor], []⟩
          = .ok ⟨heapOf InfoLevel [simpleProcessor], []⟩ :=
  ⟨by decide, write_disabled_no_calls _ _ _ _ _ (by decide)⟩

/-- C2: when the severity is at or above the threshold held by the logger's level,
`write` returns normally and, among the calls it adds to the trace, exactly one
is a call on the logger's sink, and that call carries the caller's message. -/
theorem write_enabled_emits_once {σ : Type} (l : Logger) (level : Level) (msg : String)
    (fields : List Field) (w : World σ) (hge : w.heap.levels l.Level.l ≤ level) :
    ∃ (w1 : World σ) (added : List Event),
      write l level msg fields w = .ok w1
        ∧ w1.trace = w.trace ++ added
        ∧ added.filterMap Event.emitted = [(l.Logger, msg)] := by
  have hen : l.Level.Enabled w.heap level = true := by
    simp [AtomicLevel.Enabled, Level.Enabled, hge]
  refine ⟨_, _, write_enabled_eq l level msg fields w hen, List.append_assoc _ _ _, ?_⟩
  simp [processorEvents_not_emitted, Event.emitted]

theorem write_enabled_emits_once_witness :
    (heapOf WarnLevel [simpleProcessor]).levels (loggerOf 1).Level.l ≤ ErrorLevel
      ∧ ∃ (w1 : World Unit) (added : List Event),
          write (loggerOf 1) ErrorLevel "hello world" [] ⟨heapOf WarnLevel [simpleProcessor], []⟩
              = .ok w1
            ∧ w1.trace = [] ++ added
            ∧ added.filterMap Event.emitted = [(some ⟨0, []⟩, "hello world")] :=
  ⟨by decide, write_enabled_emits_once _ _ _ _ _ (by decide)⟩

/-- C3: when every processor result and every call-site field has a known type,
an enabled `Info(msg, fields...)` returns normally after one sink call whose
field list is exactly the object field `extra` holding the processor results in
processor-list order, the namespace `context`, and the call-site fields in call
order. -/
theorem Info_known_fields {σ : Type} (l : Logger) (msg : String) (fields : List Field)
    (w : World σ) (hen : l.Level.Enabled w.heap InfoLevel = true)
    (hps : ∀ f ∈ (processorResults (w.heap.elems l.Processors) w.heap.amb).1,
      f.Typ ≠ .UnknownType)
    (hfs : ∀ f ∈ fields, f.Typ ≠ .UnknownType) :
    ∃ w1 : World σ,
      Info l msg fields w = .ok w1
        ∧ w1.trace = w.trace
            ++ processorEvents 0 (processorResults (w.heap.elems l.Processors) w.heap.amb).1
            ++ [Event.emit l.Logger InfoLevel msg
                  (zap.Object "extra"
                      ⟨(processorResults (w.heap.elems l.Processors) w.heap.amb).1.map some⟩
                    :: zap.Namespace "context" :: fields)] := by
  refine ⟨_, write_enabled_eq l InfoLevel msg fields w hen, ?_⟩
  have hlen : (processorResults (w.heap.elems l.Processors) w.heap.amb).1.length
      = l.Processors.len := by
    simp [processorResults_length, Heap.elems]
  simp [filter_known_of_all _ hps, filter_known_of_all _ hfs, hlen]

theorem Info_known_fields_witness :
    (∃ w1 : World Unit,
        Info (loggerOf 1) "hello world" [] ⟨heapOf InfoLevel [simpleProcessor], []⟩ = .ok w1
          ∧ w1.trace =
              [Event.processor 0 (zap.String "foo" "bar"),
               Event.emit (some ⟨0, []⟩) InfoLevel "hello world"
                 [zap.Object "extra" ⟨[some (zap.String "foo" "bar")]⟩,
                  zap.Namespace "context"]])
      ∧ (∃ w1 : World Unit,
          Info (loggerOf 1) "hello world" [zap.String "hello" "world"]
              ⟨heapOf InfoLevel [simpleProcessor], []⟩ = .ok w1
            ∧ w1.trace =
                [Event.processor 0 (zap.String "foo" "bar"),
                 Event.emit (some ⟨0, []⟩) InfoLevel "hello world"
                   [zap.Object "extra" ⟨[some (zap.String "foo" "bar")]⟩,
                    zap.Namespace "context",
                    zap.String "hello" "world"]]) :=
  ⟨Info_known_fields (loggerOf 1) "hello world" [] ⟨heapOf InfoLevel [simpleProcessor], []⟩
      (by decide) (by decide) (by decide),
   Info_known_fields (loggerOf 1) "hello world" [zap.String "hello" "world"]
      ⟨heapOf InfoLevel [simpleProcessor], []⟩ (by decide) (by decide) (by decide)⟩


/-- C4: `write` at a call-site field list holding one field of unknown type.  The
claimed list is `extra`, `context` and the fields of known type, here none; the
list the sink receives has a third entry, the zero-valued slot that `make` left
in `ctx` and the loop never overwrote. -/
theorem write_unknown_field_sink_list :
    write (loggerOf 0) InfoLevel "hello world" [Field.zero] ⟨heapOf InfoLevel [], []⟩
        = .ok ⟨heapOf InfoLevel [],
            [Event.emit (some ⟨0, []⟩) InfoLevel "hello world"
              [zap.Object "extra" ⟨[]⟩, zap.Namespace "context", Field.zero]]⟩
      ∧ [Field.zero].filter known = [] := by
  constructor
  · rfl
  · rfl

/-- C5: `write` at a call-site field list `[Field{}, hello="world"]`.  The list the
sink receives ends with an element whose type tag is `UnknownType`. -/
theorem write_unknown_tag_reaches_sink :
    ∃ fs : List Field,
      write (loggerOf 0) InfoLevel "hello world" [Field.zero, zap.String "hello" "world"]
          ⟨heapOf InfoLevel [], []⟩
        = .ok ⟨heapOf InfoLevel [], [Event.emit (some ⟨0, []⟩) InfoLevel "hello world" fs]⟩
      ∧ fs = [zap.Object "extra" ⟨[]⟩, zap.Namespace "context", zap.String "hello" "world",
              Field.zero]
      ∧ ∃ f ∈ fs, f.Typ = .UnknownType :=
  ⟨_, rfl, rfl, Field.zero, by simp, rfl⟩

/-- C6: `write` with the single processor `omittedProcessor`, whose result has
unknown type.  No result is retained, yet the `extra` composite handed to the
sink holds one entry, a nil pointer. -/
theorem write_extra_keeps_nil_slot :
    write (loggerOf 1) InfoLevel "hello world" [] ⟨heapOf InfoLevel [omittedProcessor], []⟩
        = .ok ⟨heapOf InfoLevel [omittedProcessor],
            [Event.processor 0 Field.zero,
             Event.emit (some ⟨0, []⟩) InfoLevel "hello world"
               [zap.Object "extra" ⟨[none]⟩, zap.Namespace "context"]]⟩
      ∧ (processorResults [omittedProcessor] ()).1.filter known = [] := by
  constructor
  · rfl
  · rfl

/-- C7: `write` with the processors `[omittedProcessor, simpleProcessor]` hands the
sink a composite holding `foo="bar"` and a nil pointer, and marshalling that
composite visits `foo="bar"` and then faults on the nil pointer. -/
theorem MarshalLogObject_faults_on_dropped_result :
    write (loggerOf 2) InfoLevel "hello world" []
          ⟨heapOf InfoLevel [omittedProcessor, simpleProcessor], []⟩
        = .ok ⟨heapOf InfoLevel [omittedProcessor, simpleProcessor],
            [Event.processor 0 Field.zero,
             Event.processor 1 (zap.String "foo" "bar"),
             Event.emit (some ⟨0, []⟩) InfoLevel "hello world"
               [zap.Object "extra" ⟨[some (zap.String "foo" "bar"), none]⟩,
                zap.Namespace "context"]]⟩
      ∧ extraFields.MarshalLogObject ⟨[some (zap.String "foo" "bar"), none]⟩ []
          = .error .nilDereference := by
  constructor
  · rfl
  · rfl


/-! ## Child derivation -/

theorem With_copy_eq {σ : Type} (src dst : Slice) (hne : dst.ptr ≠ src.ptr) (k : Nat) :
    ∀ (i : Nat) (h : Heap σ), i + k ≤ dst.len →
      With.copy src dst k i h
        = .ok { h with
                arrays := Function.update h.arrays dst.ptr
                            (fun j => if i ≤ j ∧ j < i + k then h.arrays src.ptr j
                                      else h.arrays dst.ptr j) } := by
  induction k with
  | zero =>
    intro i h _
    have hfun : (fun j => if i ≤ j ∧ j < i + 0 then h.arrays src.ptr j else h.arrays dst.ptr j)
        = h.arrays dst.ptr := by
      funext j
      have : ¬ (i ≤ j ∧ j < i + 0) := by omega
      simp only [this, if_false]
    rw [hfun, Function.update_eq_self]
    rfl
  | succ k ih =>
    intro i h hle
    have hi : i < dst.len := by omega
    simp only [With.copy, Heap.storeAt, hi, if_true]
    rw [ih (i + 1) _ (by omega)]
    congr 2
    simp only [Function.update_same, Function.update_idem, Function.update_noteq (Ne.symm hne)]
    refine congrArg (Function.update h.arrays dst.ptr) ?_
    funext j
    by_cases hj : j = i
    · subst hj
      simp
    · have h1 : (i + 1 ≤ j ∧ j < i + 1 + k) ↔ (i ≤ j ∧ j < i + (k + 1)) := by omega
      simp only [Function.update_noteq hj, h1]

/-- What `With` returns, in closed form: the child points to a fresh array that
holds the parent's elements; nothing else in the heap moves. -/
theorem With_eq {σ : Type} (l : Logger) (fields : List Field) (h : Heap σ)
    (hptr : l.Processors.ptr < h.arrayNext) :
    With l fields h
      = .ok ({ Logger := l.Logger.map (fun s => s.With fields),
               Config := l.Config,
               Level := l.Level,
               Processors := ⟨h.arrayNext, l.Processors.len, l.Processors.len⟩ },
             { h with
               arrays := Function.update h.arrays h.arrayNext
                           (fun j => if j < l.Processors.len then h.arrays l.Processors.ptr j
                                     else ProcessorFunc.zero σ),
               arrayNext := h.arrayNext + 1 }) := by
  have hne : h.arrayNext ≠ l.Processors.ptr := by omega
  have hc := With_copy_eq l.Processors ⟨h.arrayNext, l.Processors.len, l.Processors.len⟩ hne
    l.Processors.len 0 (h.make l.Processors.len).2 (by simp)
  simp only [Heap.make, Function.update_same, Function.update_idem, Function.update_noteq hne.symm,
    Nat.zero_le, Nat.zero_add, true_and] at hc
  simp only [With, Heap.make, hc]


theorem elems_congr {σ : Type} (h1 h2 : Heap σ) (s1 s2 : Slice) (hlen : s1.len = s2.len)
    (hcell : ∀ j, j < s1.len → h1.arrays s1.ptr j = h2.arrays s2.ptr j) :
    h1.elems s1 = h2.elems s2 := by
  unfold Heap.elems
  rw [← hlen]
  apply List.map_congr_left
  intro j hj
  exact hcell j (List.mem_range.mp hj)

theorem append_elems_self {σ : Type} (grow : Nat → Nat) (h : Heap σ) (s : Slice)
    (p : ProcessorFunc σ) :
    (h.append grow s p).2.elems (h.append grow s p).1 = h.elems s ++ [p] := by
  unfold Heap.append
  split
  · simp only [Heap.elems, Function.update_same, List.range_succ, List.map_append,
      List.map_cons, List.map_nil]
    congr 1
    apply List.map_congr_left
    intro j hj
    have : j ≠ s.len := by have := List.mem_range.mp hj; omega
    simp [Function.update_noteq this]
  · simp only [Heap.elems, Function.update_same, List.range_succ, List.map_append,
      List.map_cons, List.map_nil]
    congr 1
    · apply List.map_congr_left
      intro j hj
      have : j < s.len := List.mem_range.mp hj
      simp [this]
    · simp

theorem append_elems_other {σ : Type} (grow : Nat → Nat) (h : Heap σ) (s : Slice)
    (p : ProcessorFunc σ) (s2 : Slice) (hlt : s2.ptr < h.arrayNext)
    (hne : s.len < s.cap → s2.ptr ≠ s.ptr) :
    (h.append grow s p).2.elems s2 = h.elems s2 := by
  refine elems_congr _ _ s2 s2 rfl ?_
  intro j _
  unfold Heap.append
  split
  · next hin => simp [Function.update_noteq (hne hin)]
  · have : s2.ptr ≠ h.arrayNext := by omega
    simp [Function.update_noteq this]

theorem write_trace_congr {σ : Type} (l : Logger) (level : Level) (msg : String)
    (fields : List Field) (h1 h2 : Heap σ) (t : List Event)
    (helems : h1.elems l.Processors = h2.elems l.Processors)
    (hlev : h1.levels = h2.levels) (hamb : h1.amb = h2.amb) :
    (write l level msg fields ⟨h1, t⟩).map World.trace
      = (write l level msg fields ⟨h2, t⟩).map World.trace := by
  have hgate : l.Level.Enabled h1 level = l.Level.Enabled h2 level := by
    simp [AtomicLevel.Enabled, hlev]
  cases hen : l.Level.Enabled h1 level with
  | false =>
    rw [write_disabled_eq l level msg fields ⟨h1, t⟩ hen,
      write_disabled_eq l level msg fields ⟨h2, t⟩ (hgate ▸ hen)]
    rfl
  | true =>
    rw [write_enabled_eq l level msg fields ⟨h1, t⟩ hen,
      write_enabled_eq l level msg fields ⟨h2, t⟩ (hgate ▸ hen)]
    simp [Except.map, helems, hamb]

theorem storeAt_elems_other {σ : Type} (h h2 : Heap σ) (s s2 : Slice) (i : Nat)
    (p : ProcessorFunc σ) (hst : h.storeAt s i p = .ok h2) (hne : s2.ptr ≠ s.ptr) :
    h2.elems s2 = h.elems s2 := by
  unfold Heap.storeAt at hst
  split at hst
  · cases hst
    refine elems_congr _ _ s2 s2 rfl ?_
    intro j _
    simp [Function.update_noteq hne]
  · cases hst

theorem append_keeps_apart {σ : Type} (grow : Nat → Nat) (h : Heap σ) (s : Slice)
    (p : ProcessorFunc σ) (other : Nat) (hne : s.ptr ≠ other) (hs : s.ptr < h.arrayNext)
    (ho : other < h.arrayNext) :
    (h.append grow s p).1.ptr ≠ other
      ∧ (h.append grow s p).1.ptr < (h.append grow s p).2.arrayNext
      ∧ other < (h.append grow s p).2.arrayNext := by
  unfold Heap.append
  split
  · exact ⟨hne, hs, ho⟩
  · refine ⟨?_, ?_, ?_⟩ <;> simp <;> omega

theorem append_levels_amb {σ : Type} (grow : Nat → Nat) (h : Heap σ) (s : Slice)
    (p : ProcessorFunc σ) :
    (h.append grow s p).2.levels = h.levels ∧ (h.append grow s p).2.amb = h.amb := by
  unfold Heap.append
  split <;> exact ⟨rfl, rfl⟩

/-- Appends to two slices that live in different allocated arrays, in any
interleaving: each list ends as its elements at the start followed by its own
appends, in order. -/
theorem appendEach_elems {σ : Type} (grow : Nat → Nat) (ops : List (Bool × ProcessorFunc σ)) :
    ∀ (l c : Logger) (h : Heap σ), l.Processors.ptr ≠ c.Processors.ptr →
      l.Processors.ptr < h.arrayNext → c.Processors.ptr < h.arrayNext →
        (appendEach grow ops l c h).2.2.elems (appendEach grow ops l c h).1.Processors
            = h.elems l.Processors ++ parentAppends ops
          ∧ (appendEach grow ops l c h).2.2.elems (appendEach grow ops l c h).2.1.Processors
              = h.elems c.Processors ++ childAppends ops := by
  induction ops with
  | nil => intro l c h _ _ _; simp [appendEach, parentAppends, childAppends]
  | cons o ops ih =>
    intro l c h hne hl hc
    rcases o with ⟨b, p⟩
    cases b with
    | true =>
      obtain ⟨h1, h2, h3⟩ := append_keeps_apart grow h c.Processors p l.Processors.ptr
        (Ne.symm hne) hc hl
      have hi := ih l (appendProcessor grow c p h).1 (appendProcessor grow c p h).2
        (Ne.symm h1) h3 h2
      have hself := append_elems_self grow h c.Processors p
      have hother := append_elems_other grow h c.Processors p l.Processors hl (fun _ => hne)
      simp only [appendProcessor] at hi
      simp only [appendEach, appendProcessor]
      rw [hi.1, hi.2, hself, hother]
      simp [parentAppends, childAppends]
    | false =>
      obtain ⟨h1, h2, h3⟩ := append_keeps_apart grow h l.Processors p c.Processors.ptr
        hne hl hc
      have hi := ih (appendProcessor grow l p h).1 c (appendProcessor grow l p h).2
        h1 h2 h3
      have hself := append_elems_self grow h l.Processors p
      have hother := append_elems_other grow h l.Processors p c.Processors hc
        (fun _ => Ne.symm hne)
      simp only [appendProcessor] at hi
      simp only [appendEach, appendProcessor]
      rw [hi.1, hi.2, hself, hother]
      simp [parentAppends, childAppends]

theorem appendEach_child_only {σ : Type} (grow : Nat → Nat)
    (ops : List (Bool × ProcessorFunc σ)) (hops : ∀ o ∈ ops, o.1 = true) :
    ∀ (l c : Logger) (h : Heap σ),
      (appendEach grow ops l c h).1 = l
        ∧ (appendEach grow ops l c h).2.2.levels = h.levels
        ∧ (appendEach grow ops l c h).2.2.amb = h.amb
        ∧ parentAppends ops = [] := by
  induction ops with
  | nil => intro l c h; exact ⟨rfl, rfl, rfl, rfl⟩
  | cons o ops ih =>
    intro l c h
    rcases o with ⟨b, p⟩
    have hb : b = true := hops (b, p) (List.mem_cons_self _ _)
    subst hb
    obtain ⟨i1, i2, i3, i4⟩ := ih (fun o ho => hops o (List.mem_cons_of_mem _ ho)) l
      (appendProcessor grow c p h).1 (appendProcessor grow c p h).2
    have hla := append_levels_amb grow h c.Processors p
    simp only [appendProcessor] at i1 i2 i3
    simp only [appendEach, appendProcessor]
    refine ⟨i1, by rw [i2, hla.1], by rw [i3, hla.2], ?_⟩
    simpa [parentAppends] using i4

/-- C8: for a parent whose processor array is one the heap has allocated, the
child returned by `With` has a processor list equal, element for element, to the
parent's at derivation time (and `With` leaves the parent's list as it was).
The two lists are independent.  One `append` on the child's list yields the
child's elements plus the new one and leaves the parent's list, and hence what
the parent's `write` sends out, unchanged; one `append` on the parent's list
yields the parent's elements plus the new one and leaves the child's list
unchanged; an indexed store `x.Processors[i] = p` through either leaves the
other's list unchanged.  And after any number of appends to the two lists, in any
interleaving, the parent's list is its elements at derivation time followed by
the parent's own appends and the child's list is the same elements followed by
the child's own appends; when all the appends were the child's, the parent and
what its `write` sends out are as they were. -/
theorem With_processors_independent {σ : Type} (grow : Nat → Nat) (l : Logger)
    (fields : List Field) (h : Heap σ) (hptr : l.Processors.ptr < h.arrayNext) :
    ∃ (c : Logger) (h1 : Heap σ),
      With l fields h = .ok (c, h1)
        ∧ h1.elems c.Processors = h.elems l.Processors
        ∧ h1.elems l.Processors = h.elems l.Processors
        ∧ (∀ p : ProcessorFunc σ,
            (h1.append grow c.Processors p).2.elems (h1.append grow c.Processors p).1
                = h1.elems c.Processors ++ [p]
              ∧ (h1.append grow c.Processors p).2.elems l.Processors = h1.elems l.Processors
              ∧ ∀ (level : Level) (msg : String) (fs : List Field) (t : List Event),
                  (write l level msg fs ⟨(h1.append grow c.Processors p).2, t⟩).map World.trace
                    = (write l level msg fs ⟨h1, t⟩).map World.trace)
        ∧ (∀ p : ProcessorFunc σ,
            (h1.append grow l.Processors p).2.elems (h1.append grow l.Processors p).1
                = h1.elems l.Processors ++ [p]
              ∧ (h1.append grow l.Processors p).2.elems c.Processors
                  = h1.elems c.Processors)
        ∧ (∀ (i : Nat) (p : ProcessorFunc σ) (h2 : Heap σ),
            (h1.storeAt c.Processors i p = .ok h2 → h2.elems l.Processors = h1.elems l.Processors)
              ∧ (h1.storeAt l.Processors i p = .ok h2 →
                  h2.elems c.Processors = h1.elems c.Processors))
        ∧ (∀ ops : List (Bool × ProcessorFunc σ),
            (appendEach grow ops l c h1).2.2.elems (appendEach grow ops l c h1).1.Processors
                = h.elems l.Processors ++ parentAppends ops
              ∧ (appendEach grow ops l c h1).2.2.elems (appendEach grow ops l c h1).2.1.Processors
                  = h.elems l.Processors ++ childAppends ops
              ∧ ((∀ o ∈ ops, o.1 = true) →
                  (appendEach grow ops l c h1).1 = l
                    ∧ ∀ (level : Level) (msg : String) (fs : List Field) (t : List Event),
                        (write l level msg fs ⟨(appendEach grow ops l c h1).2.2, t⟩).map
                            World.trace
                          = (write l level msg fs ⟨h1, t⟩).map World.trace)) := by
  have hne : l.Processors.ptr ≠ h.arrayNext := by omega
  have hchild : ({ h with
        arrays := Function.update h.arrays h.arrayNext
                    (fun j => if j < l.Processors.len then h.arrays l.Processors.ptr j
                              else ProcessorFunc.zero σ),
        arrayNext := h.arrayNext + 1 } : Heap σ).elems
        ⟨h.arrayNext, l.Processors.len, l.Processors.len⟩ = h.elems l.Processors := by
    refine elems_congr _ _ ⟨h.arrayNext, l.Processors.len, l.Processors.len⟩ l.Processors rfl ?_
    intro j hj
    have hj2 : j < l.Processors.len := hj
    simp [hj2]
  have hparent : ({ h with
        arrays := Function.update h.arrays h.arrayNext
                    (fun j => if j < l.Processors.len then h.arrays l.Processors.ptr j
                              else ProcessorFunc.zero σ),
        arrayNext := h.arrayNext + 1 } : Heap σ).elems l.Processors = h.elems l.Processors := by
    refine elems_congr _ _ l.Processors l.Processors rfl ?_
    intro j _
    simp [Function.update_noteq hne]
  refine ⟨_, _, With_eq l fields h hptr, hchild, hparent, ?_, ?_, ?_, ?_⟩
  · intro p
    have hpar := append_elems_other grow
      ({ h with
          arrays := Function.update h.arrays h.arrayNext
                      (fun j => if j < l.Processors.len then h.arrays l.Processors.ptr j
                                else ProcessorFunc.zero σ),
          arrayNext := h.arrayNext + 1 } : Heap σ)
      ⟨h.arrayNext, l.Processors.len, l.Processors.len⟩ p l.Processors
      (by simp; omega) (by intro hlt; simp at hlt)
    refine ⟨append_elems_self _ _ _ _, hpar, ?_⟩
    intro level msg fs t
    apply write_trace_congr _ _ _ _ _ _ _ hpar
    · unfold Heap.append; split <;> rfl
    · unfold Heap.append; split <;> rfl
  · intro p
    refine ⟨append_elems_self _ _ _ _, ?_⟩
    apply append_elems_other
    · simp
    · intro _; simp; omega
  · intro i p h2
    exact ⟨fun hst => storeAt_elems_other _ _ _ _ i p hst hne,
      fun hst => storeAt_elems_other _ _ _ _ i p hst (Ne.symm hne)⟩
  · intro ops
    have hrun := appendEach_elems grow ops l
      { Logger := l.Logger.map (fun s => s.With fields),
        Config := l.Config,
        Level := l.Level,
        Processors := ⟨h.arrayNext, l.Processors.len, l.Processors.len⟩ }
      ({ h with
          arrays := Function.update h.arrays h.arrayNext
                      (fun j => if j < l.Processors.len then h.arrays l.Processors.ptr j
                                else ProcessorFunc.zero σ),
          arrayNext := h.arrayNext + 1 } : Heap σ)
      hne (by simp; omega) (by simp)
    rw [hparent, hchild] at hrun
    refine ⟨hrun.1, hrun.2, ?_⟩
    intro hops
    obtain ⟨e1, e2, e3, e4⟩ := appendEach_child_only grow ops hops l
      { Logger := l.Logger.map (fun s => s.With fields),
        Config := l.Config,
        Level := l.Level,
        Processors := ⟨h.arrayNext, l.Processors.len, l.Processors.len⟩ }
      ({ h with
          arrays := Function.update h.arrays h.arrayNext
                      (fun j => if j < l.Processors.len then h.arrays l.Processors.ptr j
                                else ProcessorFunc.zero σ),
          arrayNext := h.arrayNext + 1 } : Heap σ)
    refine ⟨e1, ?_⟩
    intro level msg fs t
    apply write_trace_congr _ _ _ _ _ _ _ _ e2 e3
    have hl := hrun.1
    rw [e1, e4, List.append_nil] at hl
    rw [hl, hparent]

theorem With_processors_independent_witness :
    ∃ (c : Logger) (h1 : Heap Unit),
      With roomyLogger [zap.String "hello" "world"] (heapOf InfoLevel [simpleProcessor])
          = .ok (c, h1)
        ∧ h1.elems c.Processors = (heapOf InfoLevel [simpleProcessor]).elems roomyLogger.Processors
        ∧ h1.elems roomyLogger.Processors
            = (heapOf InfoLevel [simpleProcessor]).elems roomyLogger.Processors
        ∧ (∀ p : ProcessorFunc Unit,
            (h1.append (fun n => 2 * n) c.Processors p).2.elems
                  (h1.append (fun n => 2 * n) c.Processors p).1
                = h1.elems c.Processors ++ [p]
              ∧ (h1.append (fun n => 2 * n) c.Processors p).2.elems roomyLogger.Processors
                  = h1.elems roomyLogger.Processors
              ∧ ∀ (level : Level) (msg : String) (fs : List Field) (t : List Event),
                  (write roomyLogger level msg fs
                      ⟨(h1.append (fun n => 2 * n) c.Processors p).2, t⟩).map World.trace
                    = (write roomyLogger level msg fs ⟨h1, t⟩).map World.trace)
        ∧ (∀ p : ProcessorFunc Unit,
            (h1.append (fun n => 2 * n) roomyLogger.Processors p).2.elems
                  (h1.append (fun n => 2 * n) roomyLogger.Processors p).1
                = h1.elems roomyLogger.Processors ++ [p]
              ∧ (h1.append (fun n => 2 * n) roomyLogger.Processors p).2.elems c.Processors
                  = h1.elems c.Processors)
        ∧ (∀ (i : Nat) (p : ProcessorFunc Unit) (h2 : Heap Unit),
            (h1.storeAt c.Processors i p = .ok h2 →
                h2.elems roomyLogger.Processors = h1.elems roomyLogger.Processors)
              ∧ (h1.storeAt roomyLogger.Processors i p = .ok h2 →
                  h2.elems c.Processors = h1.elems c.Processors))
        ∧ (∀ ops : List (Bool × ProcessorFunc Unit),
            (appendEach (fun n => 2 * n) ops roomyLogger c h1).2.2.elems
                  (appendEach (fun n => 2 * n) ops roomyLogger c h1).1.Processors
                = (heapOf InfoLevel [simpleProcessor]).elems roomyLogger.Processors
                    ++ parentAppends ops
              ∧ (appendEach (fun n => 2 * n) ops roomyLogger c h1).2.2.elems
                    (appendEach (fun n => 2 * n) ops roomyLogger c h1).2.1.Processors
                  = (heapOf InfoLevel [simpleProcessor]).elems roomyLogger.Processors
                      ++ childAppends ops
              ∧ ((∀ o ∈ ops, o.1 = true) →
                  (appendEach (fun n => 2 * n) ops roomyLogger c h1).1 = roomyLogger
                    ∧ ∀ (level : Level) (msg : String) (fs : List Field) (t : List Event),
                        (write roomyLogger level msg fs
                            ⟨(appendEach (fun n => 2 * n) ops roomyLogger c h1).2.2, t⟩).map
                            World.trace
                          = (write roomyLogger level msg fs ⟨h1, t⟩).map World.trace)) :=
  With_processors_independent (fun n => 2 * n) roomyLogger [zap.String "hello" "world"]
    (heapOf InfoLevel [simpleProcessor]) (by decide)

/-- The run the independence is about, evaluated on `roomyLogger`, whose backing
array has room to append in place: after `With`, the child appends
`omittedProcessor` and then the parent appends `simpleProcessor`.  The child's
processors still return `foo` and the zero field (key ""), the parent's return
`foo` and `foo`. -/
theorem With_then_interleaved_appends :
    ∃ (c : Logger) (h1 : Heap Unit),
      With roomyLogger [] (heapOf InfoLevel [simpleProcessor]) = .ok (c, h1)
        ∧ ((appendEach (fun n => 2 * n) [(true, omittedProcessor), (false, simpleProcessor)]
              roomyLogger c h1).2.2.elems
            (appendEach (fun n => 2 * n) [(true, omittedProcessor), (false, simpleProcessor)]
              roomyLogger c h1).2.1.Processors).map (fun p => (p ()).1.Key) = ["foo", ""]
        ∧ ((appendEach (fun n => 2 * n) [(true, omittedProcessor), (false, simpleProcessor)]
              roomyLogger c h1).2.2.elems
            (appendEach (fun n => 2 * n) [(true, omittedProcessor), (false, simpleProcessor)]
              roomyLogger c h1).1.Processors).map (fun p => (p ()).1.Key) = ["foo", "foo"] :=
  ⟨_, _, rfl, by decide, by decide⟩

theorem Derived_level {σ : Type} (l c : Logger) (hd : Derived σ l c) : c.Level = l.Level := by
  induction hd with
  | refl => rfl
  | step fields h h1 _ hw ih =>
    rw [← ih]
    unfold With at hw
    simp only [Heap.make] at hw
    split at hw
    · cases hw
    · cases hw
      rfl

/-- C9: a logger `c` derived from `l` by any number of `With` calls holds the same
level handle as `l`.  So after the threshold is set to `t` through `l`, or
through `c`, the gate check of `write` gives the same outcome for the severity
`lvl` through `l` and through `c`, namely whether `lvl` is at or above `t`. -/
theorem With_shares_level {σ : Type} (l c : Logger) (hd : Derived σ l c) (h : Heap σ)
    (t lvl : Level) :
    c.Level = l.Level
      ∧ l.Level.Enabled (l.Level.SetLevel t h) lvl = Level.Enabled t lvl
      ∧ c.Level.Enabled (l.Level.SetLevel t h) lvl = Level.Enabled t lvl
      ∧ l.Level.Enabled (c.Level.SetLevel t h) lvl = Level.Enabled t lvl
      ∧ c.Level.Enabled (c.Level.SetLevel t h) lvl = Level.Enabled t lvl := by
  have hl := Derived_level l c hd
  rw [hl]
  simp [AtomicLevel.Enabled, AtomicLevel.SetLevel]

theorem With_shares_level_witness :
    childOf.Level = (loggerOf 1).Level
      ∧ (loggerOf 1).Level.Enabled
            ((loggerOf 1).Level.SetLevel ErrorLevel (heapOf InfoLevel [simpleProcessor])) InfoLevel
          = Level.Enabled ErrorLevel InfoLevel
      ∧ childOf.Level.Enabled
            ((loggerOf 1).Level.SetLevel ErrorLevel (heapOf InfoLevel [simpleProcessor])) InfoLevel
          = Level.Enabled ErrorLevel InfoLevel
      ∧ (loggerOf 1).Level.Enabled
            (childOf.Level.SetLevel ErrorLevel (heapOf InfoLevel [simpleProcessor])) InfoLevel
          = Level.Enabled ErrorLevel InfoLevel
      ∧ childOf.Level.Enabled
            (childOf.Level.SetLevel ErrorLevel (heapOf InfoLevel [simpleProcessor])) InfoLevel
          = Level.Enabled ErrorLevel InfoLevel :=
  With_shares_level (loggerOf 1) childOf
    (Derived.step [zap.String "hello" "world"] (heapOf InfoLevel [simpleProcessor]) _
      (Derived.refl (loggerOf 1))
      (With_eq (loggerOf 1) [zap.String "hello" "world"] (heapOf InfoLevel [simpleProcessor])
        (by decide)))
    (heapOf InfoLevel [simpleProcessor]) ErrorLevel InfoLevel


/-! ## Construction -/

theorem New_options_append {σ : Type} (pre rest : List (OptionsFunc σ)) :
    ∀ (k : Nat) (l : Logger) (w : World σ) (l1 : Logger) (w1 : World σ),
      New.options pre k l w = (none, l1, w1) →
        New.options (pre ++ rest) k l w = New.options rest (k + pre.length) l1 w1
          ∧ w1.trace = w.trace ++ (List.range' k pre.length).map Event.option := by
  induction pre with
  | nil =>
    intro k l w l1 w1 hrun
    simp only [New.options, Prod.mk.injEq, true_and] at hrun
    obtain ⟨rfl, rfl⟩ := hrun
    simp
  | cons f fs ih =>
    intro k l w l1 w1 hrun
    simp only [New.options, List.cons_append] at hrun ⊢
    rcases hf : f l w.heap with ⟨_ | err, l2, h2⟩
    · rw [hf] at hrun
      simp only at hrun ⊢
      obtain ⟨happ, htr⟩ := ih (k + 1) l2 _ l1 w1 hrun
      refine ⟨?_, ?_⟩
      · have hlen : k + (f :: fs).length = k + 1 + fs.length := by
          simp only [List.length_cons]; omega
        rw [hlen]
        exact happ
      · rw [htr]
        simp [List.range'_succ]
    · rw [hf] at hrun
      simp at hrun

/-- C10: let the options be `pre ++ f :: post`, where every option of `pre`, run in
order on the logger under construction, returns no error, and `f` then returns
the error `err`.  `New` returns no logger and the error `err` wrapped with the
message "options function failed"; the calls it made are the options number
`0` to `pre.length`, in order, and nothing else: no option of `post` was run and
the sink was not built. -/
theorem New_stops_at_failing_option {σ : Type} (build : Config → Except Error Sink)
    (pre post : List (OptionsFunc σ)) (f : OptionsFunc σ) (w : World σ)
    (l1 l2 : Logger) (w1 : World σ) (h2 : Heap σ) (err : Error)
    (hpre : New.options pre 0 (New.l (w.heap.NewAtomicLevelAt InfoLevel).1)
              { w with heap := (w.heap.NewAtomicLevelAt InfoLevel).2 } = (none, l1, w1))
    (hf : f l1 w1.heap = (some err, l2, h2)) :
    New build (pre ++ f :: post) w
      = ((none, some (Error.wrap err "options function failed")),
         { heap := h2,
           trace := w.trace ++ (List.range (pre.length + 1)).map Event.option }) := by
  obtain ⟨happ, htr⟩ := New_options_append pre (f :: post) 0 _ _ l1 w1 hpre
  simp only [New, happ, New.options, hf, errors.Wrap, htr]
  simp [List.range_eq_range', List.range'_concat]

theorem New_stops_at_failing_option_witness :
    New (fun _ => .ok ⟨0, []⟩) ([callerOption] ++ failingOption :: [callerOption])
        ⟨heapOf InfoLevel [], []⟩
      = ((none, some (Error.wrap (Error.new "bad option") "options function failed")),
         { heap := ((heapOf InfoLevel []).NewAtomicLevelAt InfoLevel).2,
           trace := [] ++ (List.range ([callerOption].length + 1)).map Event.option }) :=
  New_stops_at_failing_option (fun _ => .ok ⟨0, []⟩) [callerOption] [callerOption] failingOption
    ⟨heapOf InfoLevel [], []⟩ _ _ _ _ _ rfl rfl


theorem New_options_of_applied {σ : Type} (fs : List (OptionsFunc σ)) (l l1 : Logger)
    (h h1 : Heap σ) (happ : AppliedInOrder σ fs l h l1 h1) :
    ∀ (k : Nat) (tr : List Event),
      ∃ tr1 : List Event, New.options fs k l ⟨h, tr⟩ = (none, l1, ⟨h1, tr1⟩) := by
  induction happ with
  | nil l h => intro k tr; exact ⟨tr, rfl⟩
  | cons hf _ ih =>
    intro k tr
    obtain ⟨tr1, hrun⟩ := ih (k + 1) (tr ++ [Event.option k])
    refine ⟨tr1, ?_⟩
    simp only [New.options, hf]
    exact hrun

theorem New_options_sound {σ : Type} (fs : List (OptionsFunc σ)) :
    ∀ (k : Nat) (l : Logger) (w : World σ),
      ((New.options fs k l w).1 = none →
          AppliedInOrder σ fs l w.heap (New.options fs k l w).2.1 (New.options fs k l w).2.2.heap)
        ∧ (∀ err, (New.options fs k l w).1 = some err → SomeOptionFails σ fs l w.heap err) := by
  induction fs with
  | nil =>
    intro k l w
    refine ⟨fun _ => AppliedInOrder.nil l w.heap, ?_⟩
    intro err herr
    simp [New.options] at herr
  | cons f fs ih =>
    intro k l w
    rcases hf : f l w.heap with ⟨_ | e, l2, h2⟩
    · obtain ⟨ih1, ih2⟩ := ih (k + 1) l2 ⟨h2, w.trace ++ [Event.option k]⟩
      simp only [New.options, hf]
      refine ⟨fun hnone => AppliedInOrder.cons hf (ih1 hnone), ?_⟩
      intro err herr
      obtain ⟨pre, post, g, l3, l4, h3, h4, hsplit, hpre, hg⟩ := ih2 err herr
      exact ⟨f :: pre, post, g, l3, l4, h3, h4, by rw [hsplit]; rfl,
        AppliedInOrder.cons hf hpre, hg⟩
    · simp only [New.options, hf]
      refine ⟨fun hnone => by simp at hnone, ?_⟩
      intro err herr
      simp only [Option.some.injEq] at herr
      subst herr
      exact ⟨[], fs, f, l, l2, w.heap, h2, rfl, AppliedInOrder.nil l w.heap, hf⟩

/-- C11: `New` returns an error exactly when some option fails (the options before
it having applied in order without error, it returns an error) or all the
options apply in order without error and the sink build from the configuration
they leave fails.  When `New` returns an error it returns no logger; when it
returns no error, the options all applied in order, the build from the
configuration they left succeeded, and the logger returned is the one the
options left with its sink set to the built one. -/
theorem New_error_iff {σ : Type} (build : Config → Except Error Sink)
    (options : List (OptionsFunc σ)) (w : World σ) :
    ((New build options w).1.2 ≠ none
        ↔ ((∃ err, SomeOptionFails σ options (New.l (w.heap.NewAtomicLevelAt InfoLevel).1)
                (w.heap.NewAtomicLevelAt InfoLevel).2 err)
            ∨ ∃ (l1 : Logger) (h1 : Heap σ) (err : Error),
                AppliedInOrder σ options (New.l (w.heap.NewAtomicLevelAt InfoLevel).1)
                    (w.heap.NewAtomicLevelAt InfoLevel).2 l1 h1
                  ∧ build l1.Config = .error err))
      ∧ ((New build options w).1.2 ≠ none → (New build options w).1.1 = none)
      ∧ ((New build options w).1.2 = none →
          ∃ (l1 : Logger) (h1 : Heap σ) (s : Sink),
            AppliedInOrder σ options (New.l (w.heap.NewAtomicLevelAt InfoLevel).1)
                (w.heap.NewAtomicLevelAt InfoLevel).2 l1 h1
              ∧ build l1.Config = .ok s
              ∧ (New build options w).1.1 = some { l1 with Logger := some s }
              ∧ ({ l1 with Logger := some s } : Logger).Logger = some s) := by
  obtain ⟨hs1, hs2⟩ := New_options_sound options 0 (New.l (w.heap.NewAtomicLevelAt InfoLevel).1)
    { w with heap := (w.heap.NewAtomicLevelAt InfoLevel).2 }
  rcases hrun : New.options options 0 (New.l (w.heap.NewAtomicLevelAt InfoLevel).1)
      { w with heap := (w.heap.NewAtomicLevelAt InfoLevel).2 } with ⟨_ | err, l1, w1⟩
  · rw [hrun] at hs1
    have happ := hs1 rfl
    simp only at happ
    rcases hb : build l1.Config with e | s
    · have hnew : (New build options w).1 = (none, some (Error.wrap e "failed to build logger")) := by
        simp [New, hrun, hb, errors.Wrap]
      rw [hnew]
      refine ⟨?_, fun _ => rfl, fun hne => by simp at hne⟩
      constructor
      · intro _
        exact Or.inr ⟨l1, w1.heap, e, happ, hb⟩
      · intro _
        simp
    · have hnew : (New build options w).1 = (some { l1 with Logger := some s }, none) := by
        simp [New, hrun, hb]
      rw [hnew]
      refine ⟨?_, fun hne => by simp at hne, fun _ => ⟨l1, w1.heap, s, happ, hb, rfl, rfl⟩⟩
      constructor
      · intro hne
        simp at hne
      · intro hor
        exfalso
        rcases hor with ⟨err, pre, post, f, l3, l4, h3, h4, hsplit, hpre, hf⟩ | ⟨l3, h3, err, happ3, hb3⟩
        · obtain ⟨tr1, hp⟩ := New_options_of_applied pre _ _ _ _ hpre 0 w.trace
          obtain ⟨happend, _⟩ := New_options_append pre (f :: post) 0 _ _ _ _ hp
          rw [← hsplit, hrun] at happend
          simp [New.options, hf] at happend
        · obtain ⟨tr1, hp⟩ := New_options_of_applied options _ _ _ _ happ3 0 w.trace
          rw [hrun] at hp
          simp only [Prod.mk.injEq, true_and] at hp
          rw [← hp.1, hb] at hb3
          simp at hb3
  · have hnew : (New build options w).1
        = (none, some (Error.wrap err "options function failed")) := by
      simp [New, hrun, errors.Wrap]
    rw [hnew]
    refine ⟨?_, fun _ => rfl, fun hne => by simp at hne⟩
    constructor
    · intro _
      rw [hrun] at hs2
      exact Or.inl ⟨err, hs2 err rfl⟩
    · intro _
      simp

/-- C12: when the sink builds from the default configuration, `New()` with no
options returns a logger and no error.  The logger's gate lets Info through and
stops Debug, its processor list is the nil slice and has no elements, and its
configuration has caller and stack-trace annotations disabled, encoding "json",
output path stdout and error output path stderr. -/
theorem New_defaults {σ : Type} (build : Config → Except Error Sink) (w : World σ) (s : Sink)
    (hbuild : build (New.l (w.heap.NewAtomicLevelAt InfoLevel).1).Config = .ok s) :
    ∃ (l : Logger) (w1 : World σ),
      New build [] w = ((some l, none), w1)
        ∧ l.Logger = some s
        ∧ l.Level.Enabled w1.heap InfoLevel = true
        ∧ l.Level.Enabled w1.heap DebugLevel = false
        ∧ l.Processors = Slice.nil
        ∧ w1.heap.elems l.Processors = []
        ∧ l.Config.DisableCaller = true
        ∧ l.Config.DisableStacktrace = true
        ∧ l.Config.Encoding = "json"
        ∧ l.Config.OutputPaths = ["stdout"]
        ∧ l.Config.ErrorOutputPaths = ["stderr"] := by
  refine ⟨{ New.l (w.heap.NewAtomicLevelAt InfoLevel).1 with Logger := some s },
    ({ w with heap := (w.heap.NewAtomicLevelAt InfoLevel).2 } : World σ).log
      (Event.build (New.l (w.heap.NewAtomicLevelAt InfoLevel).1).Config), ?_, rfl, ?_, ?_, rfl, rfl,
    rfl, rfl, rfl, rfl, rfl⟩
  · simp only [New, New.options, hbuild]
  · simp [World.log, AtomicLevel.Enabled, Heap.NewAtomicLevelAt, New.l, Level.Enabled, InfoLevel]
  · simp [World.log, AtomicLevel.Enabled, Heap.NewAtomicLevelAt, New.l, Level.Enabled, InfoLevel,
      DebugLevel]

theorem New_defaults_witness :
    ∃ (l : Logger) (w1 : World Unit),
      New (fun _ => .ok ⟨0, []⟩) [] ⟨heapOf WarnLevel [], []⟩ = ((some l, none), w1)
        ∧ l.Logger = some ⟨0, []⟩
        ∧ l.Level.Enabled w1.heap InfoLevel = true
        ∧ l.Level.Enabled w1.heap DebugLevel = false
        ∧ l.Processors = Slice.nil
        ∧ w1.heap.elems l.Processors = []
        ∧ l.Config.DisableCaller = true
        ∧ l.Config.DisableStacktrace = true
        ∧ l.Config.Encoding = "json"
        ∧ l.Config.OutputPaths = ["stdout"]
        ∧ l.Config.ErrorOutputPaths = ["stderr"] :=
  New_defaults (fun _ => .ok ⟨0, []⟩) ⟨heapOf WarnLevel [], []⟩ ⟨0, []⟩ rfl

theorem New_options_invariant {σ : Type} (P : Logger → Prop) (options : List (OptionsFunc σ))
    (hkeep : ∀ f ∈ options, ∀ (l0 : Logger) (h0 : Heap σ), P l0 → P (f l0 h0).2.1) :
    ∀ (k : Nat) (l : Logger) (w : World σ), P l → P (New.options options k l w).2.1 := by
  induction options with
  | nil => intro k l w hl; exact hl
  | cons f fs ih =>
    intro k l w hl
    have hf := hkeep f (List.mem_cons_self f fs) l w.heap hl
    simp only [New.options]
    rcases hfl : f l w.heap with ⟨_ | err, l2, h2⟩
    · rw [hfl] at hf
      exact ih (fun g hg => hkeep g (List.mem_cons_of_mem f hg)) (k + 1) l2 _ hf
    · rw [hfl] at hf
      exact hf

/-- C13, as stated, at the option list `[levelOption]`: `New` succeeds, the gate
of the returned logger is the cell `New` allocated, the level of its final
configuration is the cell the option allocated, and the two disagree on Debug. -/
theorem New_gate_differs_from_config_level :
    ∃ (l : Logger) (w1 : World Unit),
      New (fun _ => .ok ⟨0, []⟩) [levelOption] ⟨heapOf InfoLevel [], []⟩ = ((some l, none), w1)
        ∧ l.Level = ⟨1⟩
        ∧ l.Config.Level = ⟨2⟩
        ∧ l.Level.Enabled w1.heap DebugLevel = false
        ∧ l.Config.Level.Enabled w1.heap DebugLevel = true :=
  ⟨_, _, rfl, rfl, rfl, by decide, by decide⟩

/-- C13, amended: when `New` succeeds and every option, given a logger whose
`Level` and `Config.Level` are the same handle, leaves them the same handle, the
gate of the returned logger is the level held by its final configuration, and
the two give the same outcome for every severity. -/
theorem New_gate_is_config_level {σ : Type} (build : Config → Except Error Sink)
    (options : List (OptionsFunc σ)) (w w1 : World σ) (l : Logger)
    (hkeep : ∀ f ∈ options, ∀ (l0 : Logger) (h0 : Heap σ),
      l0.Level = l0.Config.Level → (f l0 h0).2.1.Level = (f l0 h0).2.1.Config.Level)
    (hok : New build options w = ((some l, none), w1)) :
    l.Level = l.Config.Level
      ∧ ∀ lvl : Level, l.Level.Enabled w1.heap lvl = l.Config.Level.Enabled w1.heap lvl := by
  have hinv := New_options_invariant (fun l0 => l0.Level = l0.Config.Level) options hkeep 0
    (New.l (w.heap.NewAtomicLevelAt InfoLevel).1)
    { w with heap := (w.heap.NewAtomicLevelAt InfoLevel).2 } rfl
  have hl : l.Level = l.Config.Level := by
    unfold New at hok
    simp only at hok
    rcases hrun : New.options options 0 (New.l (w.heap.NewAtomicLevelAt InfoLevel).1)
        { w with heap := (w.heap.NewAtomicLevelAt InfoLevel).2 } with ⟨_ | err, l1, w2⟩
    · rw [hrun] at hok hinv
      rcases hb : build l1.Config with e | s
      · simp [hb, errors.Wrap] at hok
      · simp only [hb, Prod.mk.injEq, Option.some.injEq, and_true] at hok
        rw [← hok.1]
        exact hinv
    · rw [hrun] at hok
      simp [errors.Wrap] at hok
  exact ⟨hl, fun lvl => by rw [hl]⟩

theorem New_gate_is_config_level_witness :
    ∃ (l : Logger) (w1 : World Unit),
      New (fun _ => .ok ⟨0, []⟩) [callerOption] ⟨heapOf InfoLevel [], []⟩ = ((some l, none), w1)
        ∧ l.Config.DisableCaller = false
        ∧ l.Level = l.Config.Level
        ∧ ∀ lvl : Level, l.Level.Enabled w1.heap lvl = l.Config.Level.Enabled w1.heap lvl :=
  ⟨_, _, rfl, rfl,
    New_gate_is_config_level (fun _ => .ok ⟨0, []⟩) [callerOption] ⟨heapOf InfoLevel [], []⟩ _ _
      (by
        intro f hf l0 h0 h
        simp only [List.mem_singleton] at hf
        subst hf
        exact h)
      rfl⟩

/-! ## The emission pipeline, continued -/

/-- C14, as stated, at the severity Error: the gate (threshold Info) lets Error
through, and `write` calls the sink at Info, which is not the severity it was
given. -/
theorem write_Error_forwards_at_Info :
    (loggerOf 0).Level.Enabled (heapOf InfoLevel []) ErrorLevel = true
      ∧ write (loggerOf 0) ErrorLevel "hello world" [] ⟨heapOf InfoLevel [], []⟩
          = .ok ⟨heapOf InfoLevel [],
              [Event.emit (some ⟨0, []⟩) InfoLevel "hello world"
                [zap.Object "extra" ⟨[]⟩, zap.Namespace "context"]]⟩
      ∧ InfoLevel ≠ ErrorLevel :=
  ⟨by decide, rfl, by decide⟩

/-- C14, amended: for every severity the gate lets through, `write` returns
normally and its one sink call is at Info, whatever the severity argument.
Through `Info`, which is the only caller of `write` and passes Info, the
severity of the sink call is therefore the severity argument. -/
theorem write_forwards_at_Info {σ : Type} (l : Logger) (level : Level) (msg : String)
    (fields : List Field) (w : World σ) (hen : l.Level.Enabled w.heap level = true) :
    ∃ (w1 : World σ) (added : List Event),
      write l level msg fields w = .ok w1
        ∧ w1.trace = w.trace ++ added
        ∧ added.filterMap Event.emittedLevel = [InfoLevel] := by
  refine ⟨_, _, write_enabled_eq l level msg fields w hen, List.append_assoc _ _ _, ?_⟩
  simp [processorEvents_no_level, Event.emittedLevel]

theorem write_forwards_at_Info_witness :
    ∃ (w1 : World Unit) (added : List Event),
      Info (loggerOf 1) "hello world" [] ⟨heapOf InfoLevel [simpleProcessor], []⟩ = .ok w1
        ∧ w1.trace = [] ++ added
        ∧ added.filterMap Event.emittedLevel = [InfoLevel] :=
  write_forwards_at_Info (loggerOf 1) InfoLevel "hello world" []
    ⟨heapOf InfoLevel [simpleProcessor], []⟩ (by decide)

/-- C15, as stated, with the threshold set to Debug, which is below Info: `Info`
does call the sink, so the number of sink calls goes from 0 to 1. -/
theorem Info_emits_after_lowering_to_Debug :
    DebugLevel < InfoLevel
      ∧ Info (loggerOf 0) "hello world" []
            ⟨(loggerOf 0).Level.SetLevel DebugLevel (heapOf InfoLevel []), []⟩
          = .ok ⟨(loggerOf 0).Level.SetLevel DebugLevel (heapOf InfoLevel []),
              [Event.emit (some ⟨0, []⟩) InfoLevel "hello world"
                [zap.Object "extra" ⟨[]⟩, zap.Namespace "context"]]⟩ :=
  ⟨by decide, rfl⟩

/-- C15, amended: after the threshold is raised above Info through the logger's
level (for example set to Warn), `Info` returns the world as it received it: no
record is emitted and the sink calls in the trace are the ones that were there. -/
theorem Info_silent_after_raising {σ : Type} (l : Logger) (msg : String) (fields : List Field)
    (h : Heap σ) (tr : List Event) (t : Level) (ht : InfoLevel < t) :
    Info l msg fields ⟨l.Level.SetLevel t h, tr⟩ = .ok ⟨l.Level.SetLevel t h, tr⟩ := by
  apply write_disabled_eq
  have : ¬ t ≤ InfoLevel := not_le.mpr ht
  simp [AtomicLevel.Enabled, AtomicLevel.SetLevel, Level.Enabled, this]

theorem Info_silent_after_raising_witness :
    InfoLevel < WarnLevel
      ∧ Info (loggerOf 1) "hello world" [zap.String "hello" "world"]
            ⟨(loggerOf 1).Level.SetLevel WarnLevel (heapOf InfoLevel [simpleProcessor]), []⟩
          = .ok ⟨(loggerOf 1).Level.SetLevel WarnLevel (heapOf InfoLevel [simpleProcessor]), []⟩ :=
  ⟨by decide, Info_silent_after_raising _ _ _ _ _ WarnLevel (by decide)⟩


/-- C16: on an enabled call, `write` returns normally and the calls it adds to
the trace are, first, one call of each processor of the list, at positions
`0, 1, ..., len(Processors) - 1` in that order, each with the result the
processor returned, and then the one sink call.  Every processor is called
whatever the type of the results before it. -/
theorem write_invokes_each_processor_once {σ : Type} (l : Logger) (level : Level)
    (msg : String) (fields : List Field) (w : World σ)
    (hen : l.Level.Enabled w.heap level = true) :
    ∃ (w1 : World σ) (calls : List Event) (ctx : List Field),
      write l level msg fields w = .ok w1
        ∧ w1.trace = w.trace ++ calls ++ [Event.emit l.Logger InfoLevel msg ctx]
        ∧ calls = processorEvents 0 (processorResults (w.heap.elems l.Processors) w.heap.amb).1
        ∧ calls.filterMap Event.invoked = List.range l.Processors.len
        ∧ calls.length = l.Processors.len := by
  have hlen : (processorResults (w.heap.elems l.Processors) w.heap.amb).1.length
      = l.Processors.len := by
    simp [processorResults_length, Heap.elems]
  refine ⟨_, _, _, write_enabled_eq l level msg fields w hen, rfl, rfl, ?_, ?_⟩
  · rw [processorEvents_invoked, hlen, List.range_eq_range']
  · rw [processorEvents_length, hlen]

theorem write_invokes_each_processor_once_witness :
    ∃ (w1 : World Unit) (calls : List Event) (ctx : List Field),
      write (loggerOf 2) InfoLevel "hello world" []
            ⟨heapOf InfoLevel [omittedProcessor, simpleProcessor], []⟩ = .ok w1
        ∧ w1.trace = [] ++ calls ++ [Event.emit (some ⟨0, []⟩) InfoLevel "hello world" ctx]
        ∧ calls = [Event.processor 0 Field.zero, Event.processor 1 (zap.String "foo" "bar")]
        ∧ calls.filterMap Event.invoked = List.range 2
        ∧ calls.length = 2 :=
  write_invokes_each_processor_once (loggerOf 2) InfoLevel "hello world" []
    ⟨heapOf InfoLevel [omittedProcessor, simpleProcessor], []⟩ (by decide)

/-- C17: on an enabled call, the list `write` passes to the sink has exactly
`len(fields) + 2` entries: the object field `extra`, the namespace `context`,
the call-site fields of known type in call order, then one zero-valued field
for each call-site field that was dropped.  The `extra` composite has exactly
`len(Processors)` slots: the retained results in order, then one nil slot for
each dropped result. -/
theorem write_sink_list_shape {σ : Type} (l : Logger) (level : Level) (msg : String)
    (fields : List Field) (w : World σ) (hen : l.Level.Enabled w.heap level = true) :
    ∃ (w1 : World σ) (added : List Event) (efs : List (Option Field)) (ctx : List Field),
      write l level msg fields w = .ok w1
        ∧ w1.trace = w.trace ++ added
        ∧ added.filterMap Event.emittedFields = [ctx]
        ∧ ctx = zap.Object "extra" ⟨efs⟩ :: zap.Namespace "context"
                  :: (fields.filter known
                      ++ List.replicate (fields.filter (fun f => !known f)).length Field.zero)
        ∧ ctx.length = fields.length + 2
        ∧ efs = ((processorResults (w.heap.elems l.Processors) w.heap.amb).1.filter known).map some
                  ++ List.replicate
                      ((processorResults (w.heap.elems l.Processors) w.heap.amb).1.filter
                        (fun f => !known f)).length none
        ∧ efs.length = l.Processors.len := by
  have hlen : (processorResults (w.heap.elems l.Processors) w.heap.amb).1.length
      = l.Processors.len := by
    simp [processorResults_length, Heap.elems]
  have hp := length_sub_filter_known (processorResults (w.heap.elems l.Processors) w.heap.amb).1
  have hf := length_sub_filter_known fields
  rw [hlen] at hp
  have hple := List.length_filter_le known
    (processorResults (w.heap.elems l.Processors) w.heap.amb).1
  have hfle := List.length_filter_le known fields
  refine ⟨_, _,
    ((processorResults (w.heap.elems l.Processors) w.heap.amb).1.filter known).map some
      ++ List.replicate
          ((processorResults (w.heap.elems l.Processors) w.heap.amb).1.filter
            (fun f => !known f)).length none,
    zap.Object "extra"
        ⟨((processorResults (w.heap.elems l.Processors) w.heap.amb).1.filter known).map some
          ++ List.replicate
              ((processorResults (w.heap.elems l.Processors) w.heap.amb).1.filter
                (fun f => !known f)).length none⟩
      :: zap.Namespace "context"
      :: (fields.filter known
          ++ List.replicate (fields.filter (fun f => !known f)).length Field.zero),
    write_enabled_eq l level msg fields w hen, List.append_assoc _ _ _, ?_, rfl, ?_, rfl, ?_⟩
  · simp only [List.filterMap_append, processorEvents_no_fields, List.nil_append,
      List.filterMap_cons, Event.emittedFields, List.filterMap_nil, hp, hf]
  · simp only [List.length_cons, List.length_append, List.length_replicate]
    omega
  · simp only [List.length_append, List.length_map, List.length_replicate]
    omega

theorem write_sink_list_shape_witness :
    ∃ (w1 : World Unit) (added : List Event) (efs : List (Option Field)) (ctx : List Field),
      write (loggerOf 2) InfoLevel "hello world" [Field.zero, zap.String "hello" "world"]
            ⟨heapOf InfoLevel [omittedProcessor, simpleProcessor], []⟩ = .ok w1
        ∧ w1.trace = [] ++ added
        ∧ added.filterMap Event.emittedFields = [ctx]
        ∧ ctx = [zap.Object "extra" ⟨efs⟩, zap.Namespace "context", zap.String "hello" "world",
                 Field.zero]
        ∧ ctx.length = 2 + 2
        ∧ efs = [some (zap.String "foo" "bar"), none]
        ∧ efs.length = 2 :=
  write_sink_list_shape (loggerOf 2) InfoLevel "hello world"
    [Field.zero, zap.String "hello" "world"]
    ⟨heapOf InfoLevel [omittedProcessor, simpleProcessor], []⟩ (by decide)

/-- C18: every indexed store of `write` is in bounds.  After the first `n`
processors have been visited the loop has not faulted and its write index into
`extras.fields` is at most `n`; after the first `n` call-site fields have been
visited the loop has not faulted and its write index into `ctx` is at most
`n + 2`; both slices keep the length they were made with; and `write` as a
whole returns normally, so no store was out of range. -/
theorem write_stores_in_bounds {σ : Type} (l : Logger) (level : Level) (msg : String)
    (fields : List Field) (w : World σ) (n : Nat) :
    (∃ (efs : List (Option Field)) (i : Nat) (w1 : World σ),
        write.processors ((w.heap.elems l.Processors).take n) 0
            (List.replicate l.Processors.len none) 0 w = .ok (efs, i, w1)
          ∧ i ≤ n ∧ i ≤ l.Processors.len ∧ efs.length = l.Processors.len)
      ∧ (∀ extra ns : Field, ∃ (ctx : List Field) (j : Nat),
          write.fields (fields.take n) (extra :: ns :: List.replicate fields.length Field.zero) 2
              = .ok (ctx, j)
            ∧ j ≤ n + 2 ∧ j ≤ fields.length + 2 ∧ ctx.length = fields.length + 2)
      ∧ (∃ w1 : World σ, write l level msg fields w = .ok w1) := by
  have hel : (w.heap.elems l.Processors).length = l.Processors.len := by simp [Heap.elems]
  refine ⟨?_, ?_, ?_⟩
  · have hres := processorResults_length ((w.heap.elems l.Processors).take n) w.heap.amb
    have hfle := List.length_filter_le known
      (processorResults ((w.heap.elems l.Processors).take n) w.heap.amb).1
    have htake : ((w.heap.elems l.Processors).take n).length = min n l.Processors.len := by
      simp [hel]
    have hp := write_processors_eq ((w.heap.elems l.Processors).take n) 0 []
      (List.replicate l.Processors.len none) w (by simp [htake])
    refine ⟨_, _, _, hp, ?_, ?_, ?_⟩
    · simp only [List.length_nil, Nat.zero_add]; omega
    · simp only [List.length_nil, Nat.zero_add]; omega
    · simp only [List.nil_append, List.length_append, List.length_map, List.length_drop,
        List.length_replicate]
      omega
  · intro extra ns
    have hfle := List.length_filter_le known (fields.take n)
    have htake : (fields.take n).length = min n fields.length := by simp
    have hf := write_fields_eq (fields.take n) [extra, ns]
      (List.replicate fields.length Field.zero) (by simp)
    refine ⟨_, _, hf, ?_, ?_, ?_⟩
    · simp only [List.length_cons, List.length_nil]; omega
    · simp only [List.length_cons, List.length_nil]; omega
    · simp only [List.length_append, List.length_cons, List.length_nil, List.length_drop,
        List.length_replicate]
      omega
  · cases hen : l.Level.Enabled w.heap level with
    | false => exact ⟨_, write_disabled_eq l level msg fields w hen⟩
    | true => exact ⟨_, write_enabled_eq l level msg fields w hen⟩

end Monolog
